import Mathlib

set_option linter.dupNamespace false

/-!
Verification of the vietnam-reels-rag repository against its natural-language
specification.  The pure web utilities (pricing, coverage grouping, SSE stream
decoding, retrying API calls, the rag route handlers) are embedded from the
TypeScript sources under `src/web`.  The hierarchical chunking and indexing
pipeline is not present in the repository sources (only described by the
specification); its definitions below are modelled from the spec and are marked
as such in their doc comments.
-/

set_option maxHeartbeats 1000000
set_option maxRecDepth 10000

/-! ## String helpers shared by several embedded modules -/

/-- Embeds JavaScript `String.prototype.toLowerCase` (character-wise). -/
def lowerStr (s : String) : String := ⟨s.data.map Char.toLower⟩

/-- `beginsWith needle hay`: does `hay` start with `needle`? -/
def beginsWith : List Char → List Char → Bool
  | [], _ => true
  | _ :: _, [] => false
  | a :: as, b :: bs => a == b && beginsWith as bs

/-- `containsSub needle hay`: does `needle` occur as a contiguous run of `hay`? -/
def containsSub (needle : List Char) : List Char → Bool
  | [] => beginsWith needle []
  | c :: rest => beginsWith needle (c :: rest) || containsSub needle rest

/-- Embeds JavaScript `hay.includes(needle)`. -/
def includesStr (hay needle : String) : Bool := containsSub needle.toList hay.toList

/-- Whitespace recognizer for `trim` (space, tab, newline, carriage return). -/
def isWSChar (c : Char) : Bool := c == ' ' || c == '\t' || c == '\n' || c == '\r'

/-- Embeds JavaScript `String.prototype.trim` on the character list. -/
def trimChars (l : List Char) : List Char :=
  ((l.dropWhile isWSChar).reverse.dropWhile isWSChar).reverse

/-- `trimStr` — JavaScript `s.trim()`. -/
def trimStr (s : String) : String := ⟨trimChars s.data⟩

/-- `strDrop s n` — JavaScript `s.slice(n)` for an ASCII prefix of length `n`. -/
def strDrop (s : String) (n : Nat) : String := ⟨s.data.drop n⟩

/-- `strStartsWith s p` — JavaScript `s.startsWith(p)`. -/
def strStartsWith (s p : String) : Bool := beginsWith p.data s.data

/-- Split a character list at every occurrence of the character `sep`
(JavaScript `s.split(sep)` for a one-character separator). -/
def splitOnChar (sep : Char) : List Char → List (List Char)
  | [] => [[]]
  | c :: rest =>
    if c == sep then [] :: splitOnChar sep rest
    else
      match splitOnChar sep rest with
      | [] => [[c]]
      | h :: t => (c :: h) :: t

/-- Split a character list at every occurrence of `"\n\n"` (the SSE frame
delimiter scan of `streamSSE`); the final element is the unterminated
remainder. -/
def splitFrames : List Char → List (List Char)
  | [] => [[]]
  | '\n' :: '\n' :: rest => [] :: splitFrames rest
  | c :: rest =>
    match splitFrames rest with
    | [] => [[c]]
    | h :: t => (c :: h) :: t

namespace Pricing

/-! ## src/web/utils/pricing.ts -/

/-- Per-model pricing record (USD per 1K tokens), from `pricing.ts`. -/
structure Pricing where
  inputPer1K : ℚ
  outputPer1K : ℚ
  deriving DecidableEq

/-- `DEFAULT_PRICING` from `pricing.ts`. -/
def DEFAULT_PRICING : Pricing := { inputPer1K := 0.002, outputPer1K := 0.006 }

/-- The `MODEL_PRICING` record from `pricing.ts`, as an association list in
declaration order. -/
def MODEL_PRICING : List (String × Pricing) :=
  [ ("gpt-4o-mini", ⟨0.00015, 0.00060⟩),
    ("openai/gpt-4o-mini", ⟨0.00015, 0.00060⟩),
    ("gpt-4o", ⟨0.005, 0.015⟩),
    ("openai/gpt-4o", ⟨0.005, 0.015⟩),
    ("gpt-5", ⟨0.001, 0.004⟩),
    ("openai/gpt-5", ⟨0.001, 0.004⟩),
    ("gpt-5-mini", ⟨0.0002, 0.0008⟩),
    ("openai/gpt-5-mini", ⟨0.0002, 0.0008⟩),
    ("openrouter/gpt-5-mini", ⟨0.0002, 0.0008⟩),
    ("gpt-5-chat", ⟨0.0003, 0.0012⟩),
    ("gpt-5-nano", ⟨0.0001, 0.0004⟩),
    ("claude-3-5-sonnet", ⟨0.003, 0.015⟩),
    ("anthropic/claude-3-5-sonnet", ⟨0.003, 0.015⟩),
    ("claude-3-5-haiku", ⟨0.0008, 0.004⟩),
    ("anthropic/claude-3-5-haiku", ⟨0.0008, 0.004⟩),
    ("claude-3-opus", ⟨0.015, 0.075⟩),
    ("claude-3-sonnet", ⟨0.003, 0.015⟩),
    ("claude-3-haiku", ⟨0.00025, 0.00125⟩),
    ("gemini-2.0-flash", ⟨0.0002, 0.0008⟩),
    ("google/gemini-2.0-flash", ⟨0.0002, 0.0008⟩),
    ("gemini-1.5-pro", ⟨0.0035, 0.0105⟩),
    ("google/gemini-1.5-pro", ⟨0.0035, 0.0105⟩),
    ("gemini-1.5-flash", ⟨0.000075, 0.0003⟩),
    ("grok-2", ⟨0.002, 0.010⟩),
    ("xai/grok-2", ⟨0.002, 0.010⟩),
    ("grok-beta", ⟨0.005, 0.015⟩),
    ("llama-3.1-405b-instruct", ⟨0.003, 0.015⟩),
    ("meta-llama/llama-3.1-405b-instruct", ⟨0.003, 0.015⟩),
    ("llama-3.1-70b-instruct", ⟨0.0009, 0.0009⟩),
    ("llama-3.1-8b-instruct", ⟨0.0002, 0.0002⟩),
    ("mistral-large", ⟨0.004, 0.012⟩),
    ("mistral/mistral-large", ⟨0.004, 0.012⟩),
    ("mistral-medium", ⟨0.00275, 0.00825⟩),
    ("command-r-plus", ⟨0.003, 0.015⟩),
    ("cohere/command-r-plus", ⟨0.003, 0.015⟩),
    ("command-r", ⟨0.0005, 0.0015⟩) ]

/-- `getModelPricing` from `pricing.ts`.  `none` stands for an absent
`modelId` argument; the empty string is also falsy in JavaScript. -/
def getModelPricing (modelId : Option String) : Pricing :=
  match modelId with
  | none => DEFAULT_PRICING
  | some id => if id = "" then DEFAULT_PRICING else (MODEL_PRICING.lookup id).getD DEFAULT_PRICING

/-- The `tokens` argument of `estimateCostUSD`; the fields are optional in the
TypeScript signature. -/
structure TokenCounts where
  promptTokens : Option ℚ
  completionTokens : Option ℚ

/-- Result record of `estimateCostUSD`. -/
structure CostEstimate where
  promptUSD : ℚ
  completionUSD : ℚ
  totalUSD : ℚ
  deriving DecidableEq

/-- `estimateCostUSD` from `pricing.ts` (`p || 0` over non-negative counts is
`getD 0`). -/
def estimateCostUSD (tokens : TokenCounts) (modelId : Option String) : CostEstimate :=
  let pricing := getModelPricing modelId
  let p := tokens.promptTokens.getD 0
  let c := tokens.completionTokens.getD 0
  let promptUSD := (p / 1000) * pricing.inputPer1K
  let completionUSD := (c / 1000) * pricing.outputPer1K
  ⟨promptUSD, completionUSD, promptUSD + completionUSD⟩

end Pricing

namespace Coverage

/-! ## src/web/utils/coverage.ts -/

/-- `CoverageCategory` from `src/web/types.ts`. -/
inductive CoverageCategory
  | playbook
  | daywiseNarrations
  | costs
  | styleGuide
  | travelFiles
  | other
  deriving DecidableEq

/-- `Citation` from `src/web/types.ts` (`source` required, the rest optional). -/
structure Citation where
  source : String
  title : Option String
  url : Option String
  excerpt : Option String

/-- `categorizeCitation` from `coverage.ts`: lowercase `source` + space +
`title`, then the first matching keyword rule wins, defaulting to `Other`. -/
def categorizeCitation (c : Citation) : CoverageCategory :=
  let text := lowerStr (c.source ++ " " ++ c.title.getD "")
  if includesStr text "playbook" || includesStr text "guide" || includesStr text "manual" then
    .playbook
  else if includesStr text "daywise" || includesStr text "day-wise" ||
      includesStr text "narration" || includesStr text "daily" then
    .daywiseNarrations
  else if includesStr text "cost" || includesStr text "price" ||
      includesStr text "budget" || includesStr text "expense" then
    .costs
  else if includesStr text "style" || includesStr text "template" ||
      includesStr text "format" then
    .styleGuide
  else if includesStr text "travel" || includesStr text "itinerary" ||
      includesStr text "trip" || includesStr text "destination" then
    .travelFiles
  else
    .other

/-- The `Record<CoverageCategory, Citation[]>` accumulator of
`groupCitationsByCategory`, with one field per category in declaration order. -/
structure CitationGroups where
  playbook : List Citation
  daywiseNarrations : List Citation
  costs : List Citation
  styleGuide : List Citation
  travelFiles : List Citation
  other : List Citation

/-- The initial groups record (all six categories empty). -/
def emptyGroups : CitationGroups := ⟨[], [], [], [], [], []⟩

/-- Field selection `groups[category]`. -/
def groupOf (g : CitationGroups) : CoverageCategory → List Citation
  | .playbook => g.playbook
  | .daywiseNarrations => g.daywiseNarrations
  | .costs => g.costs
  | .styleGuide => g.styleGuide
  | .travelFiles => g.travelFiles
  | .other => g.other

/-- One `forEach` step of `groupCitationsByCategory`:
`groups[categorizeCitation(citation)].push(citation)`. -/
def pushCitation (g : CitationGroups) (c : Citation) : CitationGroups :=
  match categorizeCitation c with
  | .playbook => { g with playbook := g.playbook ++ [c] }
  | .daywiseNarrations => { g with daywiseNarrations := g.daywiseNarrations ++ [c] }
  | .costs => { g with costs := g.costs ++ [c] }
  | .styleGuide => { g with styleGuide := g.styleGuide ++ [c] }
  | .travelFiles => { g with travelFiles := g.travelFiles ++ [c] }
  | .other => { g with other := g.other ++ [c] }

/-- `groupCitationsByCategory` from `coverage.ts`. -/
def groupCitationsByCategory (citations : List Citation) : CitationGroups :=
  citations.foldl pushCitation emptyGroups

/-- One element of the summary produced by `getCoverageSummary`. -/
structure CoverageEntry where
  category : CoverageCategory
  count : Nat
  deriving DecidableEq

/-- `Object.entries(groups).map(([category, items]) => ...)` in the record's
declaration (insertion) order. -/
def summaryEntries (g : CitationGroups) : List CoverageEntry :=
  [ ⟨.playbook, g.playbook.length⟩,
    ⟨.daywiseNarrations, g.daywiseNarrations.length⟩,
    ⟨.costs, g.costs.length⟩,
    ⟨.styleGuide, g.styleGuide.length⟩,
    ⟨.travelFiles, g.travelFiles.length⟩,
    ⟨.other, g.other.length⟩ ]

/-- Stable insertion used to embed the stable JavaScript
`sort((a, b) => b.count - a.count)` (descending by count, ties keep order). -/
def insertDesc (e : CoverageEntry) : List CoverageEntry → List CoverageEntry
  | [] => [e]
  | x :: xs => if x.count ≤ e.count then e :: x :: xs else x :: insertDesc e xs

/-- Stable sort by descending `count`. -/
def sortByCountDesc : List CoverageEntry → List CoverageEntry
  | [] => []
  | x :: xs => insertDesc x (sortByCountDesc xs)

/-- `getCoverageSummary` from `coverage.ts`. -/
def getCoverageSummary (citations : List Citation) : List CoverageEntry :=
  sortByCountDesc
    (((summaryEntries (groupCitationsByCategory citations)).filter
      (fun e => decide (0 < e.count))))

end Coverage

namespace Stream

/-! ## src/web/utils/stream.ts -/

/-- JavaScript `s || dflt` for an optional string: `undefined` and the empty
string are falsy. -/
def jsOr (s : Option String) (dflt : String) : String :=
  match s with
  | none => dflt
  | some m => if m = "" then dflt else m

/-- The fields of a parsed SSE `data` JSON object that `streamSSE` reads
(`obj.delta`, `obj.finish_reason`, `obj.error`, `obj.citations`,
`obj.prompt_tokens`, `obj.completion_tokens`, `obj.context_tokens`,
`obj.rag_enabled`); absent fields are `none`. -/
structure SSEJson where
  delta : Option String
  finish_reason : Option String
  error : Option String
  citations : Option (List String)
  prompt_tokens : Option Nat
  completion_tokens : Option Nat
  context_tokens : Option Nat
  rag_enabled : Option Bool

/-- The empty JSON object `{}` used when a frame has no `data`. -/
def emptyJson : SSEJson := ⟨none, none, none, none, none, none, none, none⟩

/-- The `StreamEvent` union from `stream.ts`. -/
inductive StreamEvent
  | message (delta : String)
  | done (finish_reason : Option String)
  | errorEv (error : String)
  | context (citations : List String)
  | usage (prompt_tokens completion_tokens context_tokens : Option Nat)
      (rag_enabled : Option Bool)
  deriving DecidableEq

/-- The per-frame line scan of `streamSSE`: the last `event:` line (trimmed)
names the event, defaulting to `"message"`; all `data:` lines (trimmed) are
concatenated. -/
def parseFrameHeader (lines : List String) : String × String :=
  lines.foldl
    (fun acc line =>
      let acc := if strStartsWith line "event:" then (trimStr (strDrop line 6), acc.2) else acc
      if strStartsWith line "data:" then (acc.1, acc.2 ++ trimStr (strDrop line 5)) else acc)
    ("message", "")

/-- Processing of one complete SSE frame by `streamSSE`.  `parse` embeds the
JavaScript `JSON.parse` builtin: `none` means the data is not valid JSON, in
which case the `catch` swallows the frame.  An empty `data` is replaced by the
empty object without parsing. -/
def processFrame (parse : String → Option SSEJson) (frame : String) : List StreamEvent :=
  let lines := (splitOnChar '\n' frame.data).map String.mk
  let ed := parseFrameHeader lines
  let event := ed.1
  let data := ed.2
  match (if data = "" then some emptyJson else parse data) with
  | none => []
  | some obj =>
    if event = "message" then [.message (obj.delta.getD "")]
    else if event = "done" then [.done obj.finish_reason]
    else if event = "error" then [.errorEv (jsOr obj.error "error")]
    else if event = "context" then [.context (obj.citations.getD [])]
    else if event = "usage" then
      [.usage obj.prompt_tokens obj.completion_tokens obj.context_tokens obj.rag_enabled]
    else []

/-- The complete `\n\n`-terminated frames of the received body; a trailing
remainder without a terminating blank line is never processed. -/
def framesOf (body : String) : List String := ((splitFrames body.data).map String.mk).dropLast

/-- Outcome of the `fetch` promise inside `streamSSE`: either a rejection
(with the optional `e.message`) or a response with its `ok` flag, `status`,
body presence, and the concatenation of the decoded body chunks. -/
inductive FetchResult
  | reject (msg : Option String)
  | response (ok : Bool) (status : Nat) (hasBody : Bool) (body : String)

/-- The ordered sequence of events `streamSSE` delivers to `onEvent` for a
given fetch outcome (the function's only observable behaviour). -/
def streamSSE (parse : String → Option SSEJson) (r : FetchResult) : List StreamEvent :=
  match r with
  | .reject msg => [.errorEv (jsOr msg "network error"), .done (some "error")]
  | .response ok status hasBody body =>
    if ok && hasBody then (framesOf body).flatMap (processFrame parse)
    else [.errorEv ("HTTP " ++ toString status), .done (some "error")]

end Stream

namespace Api

/-! ## src/web/utils/api.ts (`apiCall`) -/

/-- `const maxRetries = 2` in `apiCall`. -/
def maxRetries : Nat := 2

/-- `const baseDelay = 250` in `apiCall`. -/
def baseDelay : Nat := 250

/-- Outcome of one `fetch` attempt inside `apiCall`:
* `ok`: `response.ok` and the parsed JSON value;
* `httpFailure`: non-ok response with its status, the parsed `Retry-After`
  header (`Number(... || '0')`, `0` when absent) and the error message the
  handler composes from the response body;
* `fetchTypeError`: a thrown `TypeError` whose message mentions `fetch`
  (network-level failure);
* `otherFailure`: any other thrown error (e.g. an abort). -/
inductive FetchOutcome (T : Type)
  | ok (value : T)
  | httpFailure (status : Nat) (retryAfter : Nat) (failMsg : String)
  | fetchTypeError (msg : String)
  | otherFailure (msg : String)

/-- The retry guard for non-ok responses: status 429 or any 5xx. -/
def isTransientStatus (s : Nat) : Bool := s == 429 || (decide (500 ≤ s) && decide (s < 600))

/-- Retried outcomes: transient HTTP failures and network-level fetch errors. -/
def transientOutcome {T : Type} : FetchOutcome T → Bool
  | .httpFailure s _ _ => isTransientStatus s
  | .fetchTypeError _ => true
  | _ => false

/-- The delay `apiCall` sleeps before retrying `attempt`: the `Retry-After`
header (seconds, times 1000) when present and positive, otherwise
`baseDelay * 2 ^ attempt`; network errors always use the exponential delay. -/
def retryDelay {T : Type} (o : FetchOutcome T) (attempt : Nat) : Nat :=
  match o with
  | .httpFailure _ ra _ => if 0 < ra then ra * 1000 else baseDelay * 2 ^ attempt
  | _ => baseDelay * 2 ^ attempt

/-- The error message thrown when an outcome is not (or no longer) retried. -/
def surfaceMsg {T : Type} : FetchOutcome T → Option String
  | .ok _ => none
  | .httpFailure _ _ m => some m
  | .fetchTypeError _ => some "Backend server unavailable"
  | .otherFailure m => some m

/-- Observable result of one `apiCall` invocation: the value returned or the
error thrown, the sleeps performed (in order), and how many fetch attempts
were made. -/
structure CallResult (T : Type) where
  result : Except String T
  delays : List Nat
  attemptsMade : Nat

/-- The `while (true)` loop of `apiCall`, driven by an oracle `outcomes`
giving the result of each fetch attempt.  `remaining` is `maxRetries -
attempt`, so the code's retry guard `attempt < maxRetries` is `0 <
remaining`. -/
def apiCallAux {T : Type} (outcomes : Nat → FetchOutcome T) (attempt : Nat) :
    Nat → CallResult T
  | 0 =>
    match outcomes attempt with
    | .ok v => ⟨.ok v, [], 1⟩
    | .httpFailure _ _ m => ⟨.error m, [], 1⟩
    | .fetchTypeError _ => ⟨.error "Backend server unavailable", [], 1⟩
    | .otherFailure m => ⟨.error m, [], 1⟩
  | r + 1 =>
    match outcomes attempt with
    | .ok v => ⟨.ok v, [], 1⟩
    | .httpFailure s ra m =>
      if isTransientStatus s then
        let d := if 0 < ra then ra * 1000 else baseDelay * 2 ^ attempt
        let rest := apiCallAux outcomes (attempt + 1) r
        ⟨rest.result, d :: rest.delays, rest.attemptsMade + 1⟩
      else ⟨.error m, [], 1⟩
    | .fetchTypeError _ =>
      let d := baseDelay * 2 ^ attempt
      let rest := apiCallAux outcomes (attempt + 1) r
      ⟨rest.result, d :: rest.delays, rest.attemptsMade + 1⟩
    | .otherFailure m => ⟨.error m, [], 1⟩

/-- `apiCall` from `src/web/utils/api.ts`, as a function of the per-attempt
fetch outcomes. -/
def apiCall {T : Type} (outcomes : Nat → FetchOutcome T) : CallResult T :=
  apiCallAux outcomes 0 maxRetries

end Api

namespace RagRoute

/-! ## src/web/app/api/rag/chat/route.ts and .../chat/stream/route.ts -/

/-- Outcome of the handler's `fetch` of the backend: a rejected promise
(connection failure / timeout) or a response with `ok`, `status` and body
presence plus the body payload. -/
inductive BackendResult
  | fetchReject (msg : String)
  | respond (ok : Bool) (status : Nat) (hasBody : Bool) (body : String)

/-- Body of the JSON route response: either the backend data forwarded, or
the handler's fallback object (fallback text, empty `citations`, zero
`usage`). -/
inductive RouteBody
  | forwarded (data : String)
  | fallback (content : String)
  deriving DecidableEq

/-- The fallback `choices[0].message.content` of the non-streaming rag chat
route. -/
def ragFallbackContent : String :=
  "RAG service is currently unavailable. Please ensure the FastAPI server is running and the vector database is accessible."

/-- `POST` of `src/web/app/api/rag/chat/route.ts`: forward the backend JSON on
`response.ok`; any failure (non-ok status or rejected fetch) is caught and
answered with `NextResponse.json(fallback)`, which has HTTP status 200. -/
def ragChatPOST (backend : BackendResult) : Nat × RouteBody :=
  match backend with
  | .respond true _ _ body => (200, .forwarded body)
  | .respond false _ _ _ => (200, .fallback ragFallbackContent)
  | .fetchReject _ => (200, .fallback ragFallbackContent)

/-- Body of the streaming route response: the backend stream forwarded, or the
fallback SSE stream (one `message` frame and one `done` frame with
`finish_reason` `"error"`). -/
inductive StreamRouteBody
  | forwardedStream (stream : String)
  | fallbackSSE
  deriving DecidableEq

/-- `POST` of `src/web/app/api/rag/chat/stream/route.ts`: forward the backend
stream when `response.ok && response.body`; otherwise (including a rejected
fetch) the catch block returns the fallback SSE stream, again as a status-200
response. -/
def ragChatStreamPOST (backend : BackendResult) : Nat × StreamRouteBody :=
  match backend with
  | .respond true _ true body => (200, .forwardedStream body)
  | .respond true _ false _ => (200, .fallbackSSE)
  | .respond false _ _ _ => (200, .fallbackSSE)
  | .fetchReject _ => (200, .fallbackSSE)

end RagRoute

namespace Chunker

/-! ## The Chunker (spec §4.1)

The chunking/indexing script is referenced by the repository's documentation
but its source is not in the repository; every definition in this namespace is
modelled from the spec.  A sentence is represented by the list of its tokens
as produced by the configured tokenizer, a paragraph by its list of sentences
(the blank-line split), a prose document by its list of paragraphs; the token
count of a span of text is then its length as a token list. -/

/-- The token stream of the sentence span `[a, b)` of a paragraph. -/
def sliceTok (sents : List (List String)) (a b : Nat) : List String :=
  ((sents.drop a).take (b - a)).flatten

/-- Token count of the sentence span `[a, b)`. -/
def wtok (sents : List (List String)) (a b : Nat) : Nat := (sliceTok sents a b).length

/-- A sentence-window range `[ws, we)` with its oversized flag. -/
structure WRange where
  ws : Nat
  we : Nat
  oversized : Bool
  deriving DecidableEq

/-- Modelled from the spec: the start of the trailing `overlapTokens` worth of
sentences of the window `[ws, ws + fuel)` — the longest whole-sentence suffix
whose token count is at most `budget` (fractional alignment is rounded down,
never extended). -/
def ovStart (sents : List (List String)) (budget : Nat) : Nat → Nat → Nat
  | ws, 0 => ws
  | ws, fuel + 1 =>
    if wtok sents ws (ws + (fuel + 1)) ≤ budget then ws
    else ovStart sents budget (ws + 1) fuel

/-- Modelled from the spec: the sentence-window loop for one oversized
paragraph.  `i` is the index of the next sentence (`rest` is the list of
sentences from `i` on) and `[ws, i)` the current window.  A sentence is
accumulated while the window stays within `maxT`; otherwise the window is
closed and the next one re-includes the trailing overlap (capped so the new
window still fits `maxT`, rounding the overlap down).  A single sentence
longer than `maxT` is emitted as its own chunk flagged oversized, never
truncated or dropped. -/
def go (sents : List (List String)) (maxT ovT : Nat) :
    List (List String) → Nat → Nat → List WRange
  | [], i, ws => if ws < i then [⟨ws, i, false⟩] else []
  | s :: rest, i, ws =>
    if maxT < s.length then
      (if ws < i then [⟨ws, i, false⟩] else []) ++
        ⟨i, i + 1, true⟩ :: go sents maxT ovT rest (i + 1) (i + 1)
    else if wtok sents ws i + s.length ≤ maxT then
      go sents maxT ovT rest (i + 1) ws
    else
      ⟨ws, i, false⟩ ::
        go sents maxT ovT rest (i + 1) (ovStart sents (min ovT (maxT - s.length)) ws (i - ws))

/-- A prose chunk: provenance (paragraph index and sentence range), the token
stream of its text, and the oversized flag. -/
structure PChunk where
  paragraphIndex : Nat
  sentenceStart : Nat
  sentenceEnd : Nat
  text : List String
  oversized : Bool
  deriving DecidableEq

/-- The chunk of a window range: its text is the token stream of its sentence
span. -/
def rangeChunk (pi : Nat) (sents : List (List String)) (r : WRange) : PChunk :=
  ⟨pi, r.ws, r.we, sliceTok sents r.ws r.we, r.oversized⟩

/-- Modelled from the spec: the chunks of one oversized paragraph, produced by
the sentence-window loop. -/
def windowChunks (pi : Nat) (sents : List (List String)) (maxT ovT : Nat) : List PChunk :=
  (go sents maxT ovT sents 0 0).map (rangeChunk pi sents)

/-- Token count of a whole paragraph. -/
def paraTokens (p : List (List String)) : Nat := p.flatten.length

/-- Modelled from the spec: a paragraph that fits within `maxT` is emitted as
one chunk; an oversized paragraph falls back to the sentence window. -/
def chunkOnePara (maxT ovT pi : Nat) (p : List (List String)) : List PChunk :=
  if paraTokens p ≤ maxT then [⟨pi, 0, p.length, p.flatten, false⟩]
  else windowChunks pi p maxT ovT

/-- All chunks of a paragraph list, with running paragraph indices. -/
def chunkParas (maxT ovT : Nat) : Nat → List (List (List String)) → List PChunk
  | _, [] => []
  | pi, p :: ps => chunkOnePara maxT ovT pi p ++ chunkParas maxT ovT (pi + 1) ps

/-- Modelled from the spec: stable chunk ids derived purely from the source
path and the chunk's position — entry `j` of the output receives id
`(path, i + j)`. -/
def assignIds {α : Type} (path : String) : Nat → List α → List ((String × Nat) × α)
  | _, [] => []
  | i, c :: cs => ((path, i), c) :: assignIds path (i + 1) cs

/-- Modelled from the spec: `chunkProseDocument` — paragraph-first split with
sentence-window fallback, chunk ids derived from path + position. -/
def chunkProseDocument (path : String) (paras : List (List (List String)))
    (maxT ovT : Nat) : List ((String × Nat) × PChunk) :=
  assignIds path 0 (chunkParas maxT ovT 0 paras)

/-- Join rendered lines with newlines. -/
def joinLines : List String → String
  | [] => ""
  | [x] => x
  | x :: y :: rest => x ++ "\n" ++ joinLines (y :: rest)

/-- Modelled from the spec: a CSV row rendered as `field: value` lines joined
with newlines. -/
def renderRow (fields : List (String × String)) : String :=
  joinLines (fields.map fun kv => kv.1 ++ ": " ++ kv.2)

/-- A tabular chunk: the rendered text and the original key→value map. -/
structure RowChunk where
  text : String
  structuredFields : List (String × String)
  deriving DecidableEq

/-- Modelled from the spec: `chunkTabularDocument` — each row becomes exactly
one chunk carrying the parsed row unmodified; no overlap between rows. -/
def chunkTabularDocument (path : String) (rows : List (List (String × String))) :
    List ((String × Nat) × RowChunk) :=
  assignIds path 0 (rows.map fun r => ⟨renderRow r, r⟩)

/-- A simple whitespace tokenizer, used as a concrete instance of the
configured tokenizer when evaluating chunk texts that are strings. -/
def wsTokenCount (s : String) : Nat := (splitOnChar ' ' s.data).length

/-- Overlap relation between consecutive window ranges: the later range starts
inside (or at the end of) the earlier one, and the shared sentence span costs
at most `ovT` tokens. -/
def rangeRel (sents : List (List String)) (ovT : Nat) (a b : WRange) : Prop :=
  a.ws ≤ b.ws ∧ b.ws ≤ a.we ∧ a.we ≤ b.we ∧ wtok sents b.ws a.we ≤ ovT

/-- Overlap relation between consecutive window chunks: the sentence ranges
overlap as in `rangeRel`, and with `k` the token count of the shared sentence
span (`k ≤ ovT`, rounded down to whole sentences), the last `k` tokens of the
earlier chunk equal the first `k` tokens of the later chunk. -/
def overlapRel (sents : List (List String)) (ovT : Nat) (c c2 : PChunk) : Prop :=
  c.sentenceStart ≤ c2.sentenceStart ∧
  c2.sentenceStart ≤ c.sentenceEnd ∧
  c.sentenceEnd ≤ c2.sentenceEnd ∧
  wtok sents c2.sentenceStart c.sentenceEnd ≤ ovT ∧
  c.text.drop (c.text.length - wtok sents c2.sentenceStart c.sentenceEnd)
    = c2.text.take (wtok sents c2.sentenceStart c.sentenceEnd)

end Chunker

namespace Indexer

/-! ## The Indexer (spec §4.2)

Also absent from the repository's sources; modelled from the spec.  The
vector store is an association list from chunk ids to payloads. -/

/-- Modelled from the spec: idempotent upsert by id — overwrite the entry when
the id is already present, append it otherwise. -/
def upsert {β : Type} (store : List ((String × Nat) × β)) (k : String × Nat) (v : β) :
    List ((String × Nat) × β) :=
  if store.any (fun p => decide (p.1 = k)) then
    store.map (fun p => if p.1 = k then (k, v) else p)
  else store ++ [(k, v)]

/-- Upsert a batch of id/payload entries in order. -/
def upsertAll {β : Type} (store : List ((String × Nat) × β))
    (entries : List ((String × Nat) × β)) : List ((String × Nat) × β) :=
  entries.foldl (fun s e => upsert s e.1 e.2) store

/-- The fatal error taxonomy entry relevant here (spec §7). -/
inductive IndexError
  | dimensionMismatch
  deriving DecidableEq

/-- Observable result of one indexing run: the store after the run, how many
entries were written, and the fatal failure if the run aborted. -/
structure IndexRun (β : Type) where
  store : List ((String × Nat) × β)
  written : Nat
  failure : Option IndexError

/-- Modelled from the spec: `indexChunks` — embed the batch of chunks, validate
every returned vector's dimension against the collection's configured
dimension and fail fast with `DimensionMismatchError` before any upsert;
otherwise upsert `(id, payload, vector)` for every chunk. -/
def indexChunks {β : Type} (dim : Nat) (embed : β → List ℚ)
    (store : List ((String × Nat) × (β × List ℚ)))
    (chunks : List ((String × Nat) × β)) : IndexRun (β × List ℚ) :=
  if (chunks.map fun c => (c.1, (c.2, embed c.2))).all (fun e => decide (e.2.2.length = dim)) then
    ⟨upsertAll store (chunks.map fun c => (c.1, (c.2, embed c.2))), chunks.length, none⟩
  else ⟨store, 0, some .dimensionMismatch⟩

/-- `hasEntry s k v`: the store `s` holds the id `k`, and every entry with id
`k` carries exactly the payload `v`. -/
def hasEntry {β : Type} (s : List ((String × Nat) × β)) (k : String × Nat) (v : β) : Prop :=
  (∃ p ∈ s, p.1 = k) ∧ ∀ p ∈ s, p.1 = k → p = (k, v)

end Indexer

/-! ## Theorems -/

namespace Pricing

lemma getModelPricing_of_lookup_none {s : String} (h : MODEL_PRICING.lookup s = none) :
    getModelPricing (some s) = DEFAULT_PRICING := by
  by_cases hs : s = ""
  · simp [getModelPricing, hs]
  · simp [getModelPricing, hs, h]

/-- C10: cost estimation is total: an absent or unknown model id resolves to
the default pricing (0.002 input / 0.006 output USD per 1K tokens); missing
token counts are treated as zero, `totalUSD` always equals `promptUSD +
completionUSD`, and with no tokens all three amounts are zero. -/
theorem pricing_total_and_default :
    (getModelPricing none = DEFAULT_PRICING) ∧
    (DEFAULT_PRICING = ⟨0.002, 0.006⟩) ∧
    (∀ s : String, MODEL_PRICING.lookup s = none →
      getModelPricing (some s) = DEFAULT_PRICING) ∧
    (∀ t m, (estimateCostUSD t m).totalUSD
      = (estimateCostUSD t m).promptUSD + (estimateCostUSD t m).completionUSD) ∧
    (∀ t m, t.promptTokens = none → (estimateCostUSD t m).promptUSD = 0) ∧
    (∀ t m, t.completionTokens = none → (estimateCostUSD t m).completionUSD = 0) ∧
    (∀ m, estimateCostUSD ⟨none, none⟩ m = ⟨0, 0, 0⟩) := by
  refine ⟨rfl, rfl, fun s h => getModelPricing_of_lookup_none h, fun t m => rfl, ?_, ?_, ?_⟩
  · intro t m h
    simp [estimateCostUSD, h]
  · intro t m h
    simp [estimateCostUSD, h]
  · intro m
    simp [estimateCostUSD]

/-- Witness for `pricing_total_and_default` at concrete inputs: the unknown id
"qwen-72b" gets the default pricing, and an estimate with no token counts is
all zero. -/
theorem pricing_total_and_default_witness :
    getModelPricing (some "qwen-72b") = DEFAULT_PRICING ∧
    estimateCostUSD ⟨none, none⟩ (some "gpt-4o") = ⟨0, 0, 0⟩ :=
  ⟨pricing_total_and_default.2.2.1 "qwen-72b" (by rfl),
   pricing_total_and_default.2.2.2.2.2.2 (some "gpt-4o")⟩

end Pricing

namespace Coverage

lemma groupOf_push (g : CitationGroups) (c : Citation) (cat : CoverageCategory) :
    groupOf (pushCitation g c) cat =
      if categorizeCitation c = cat then groupOf g cat ++ [c] else groupOf g cat := by
  unfold pushCitation
  cases h : categorizeCitation c <;> cases cat <;> simp [groupOf]

lemma groupOf_fold (cs : List Citation) :
    ∀ g cat, groupOf (cs.foldl pushCitation g) cat
      = groupOf g cat ++ cs.filter (fun c => decide (categorizeCitation c = cat)) := by
  induction cs with
  | nil => intro g cat; simp
  | cons c cs ih =>
    intro g cat
    simp only [List.foldl_cons, ih, groupOf_push, List.filter_cons]
    by_cases h : categorizeCitation c = cat <;> simp [h]

lemma sum_lengths_fold (cs : List Citation) :
    ∀ g : CitationGroups,
      ((cs.foldl pushCitation g).playbook.length
        + (cs.foldl pushCitation g).daywiseNarrations.length
        + (cs.foldl pushCitation g).costs.length
        + (cs.foldl pushCitation g).styleGuide.length
        + (cs.foldl pushCitation g).travelFiles.length
        + (cs.foldl pushCitation g).other.length)
      = (g.playbook.length + g.daywiseNarrations.length + g.costs.length
          + g.styleGuide.length + g.travelFiles.length + g.other.length) + cs.length := by
  induction cs with
  | nil => intro g; simp
  | cons c cs ih =>
    intro g
    simp only [List.foldl_cons, ih]
    cases h : categorizeCitation c <;> simp only [pushCitation, h] <;> simp <;> omega

lemma mem_insertDesc {y e : CoverageEntry} :
    ∀ {l : List CoverageEntry}, y ∈ insertDesc e l → y = e ∨ y ∈ l := by
  intro l
  induction l with
  | nil => intro h; simpa [insertDesc] using h
  | cons x xs ih =>
    intro h
    unfold insertDesc at h
    split at h
    · rcases List.mem_cons.mp h with h | h
      · exact Or.inl h
      · exact Or.inr h
    · rcases List.mem_cons.mp h with h | h
      · exact Or.inr (by simp [h])
      · rcases ih h with h1 | h1
        · exact Or.inl h1
        · exact Or.inr (List.mem_cons_of_mem _ h1)

lemma pairwise_insertDesc (e : CoverageEntry) :
    ∀ {l : List CoverageEntry},
      List.Pairwise (fun a b => b.count ≤ a.count) l →
      List.Pairwise (fun a b => b.count ≤ a.count) (insertDesc e l) := by
  intro l
  induction l with
  | nil => intro _; simp [insertDesc]
  | cons x xs ih =>
    intro hp
    rcases List.pairwise_cons.mp hp with ⟨hx, hxs⟩
    unfold insertDesc
    split
    · rename_i hle
      refine List.pairwise_cons.mpr ⟨?_, hp⟩
      intro y hy
      rcases List.mem_cons.mp hy with rfl | hy
      · exact hle
      · exact le_trans (hx y hy) hle
    · rename_i hgt
      refine List.pairwise_cons.mpr ⟨?_, ih hxs⟩
      intro y hy
      rcases mem_insertDesc hy with rfl | hy
      · omega
      · exact hx y hy

lemma mem_sortByCountDesc {y : CoverageEntry} :
    ∀ {l : List CoverageEntry}, y ∈ sortByCountDesc l → y ∈ l := by
  intro l
  induction l with
  | nil => intro h; simp [sortByCountDesc] at h
  | cons x xs ih =>
    intro h
    rcases mem_insertDesc h with rfl | h
    · exact List.mem_cons_self _ _
    · exact List.mem_cons_of_mem _ (ih h)

lemma pairwise_sortByCountDesc :
    ∀ (l : List CoverageEntry),
      List.Pairwise (fun a b => b.count ≤ a.count) (sortByCountDesc l) := by
  intro l
  induction l with
  | nil => simp [sortByCountDesc]
  | cons x xs ih => exact pairwise_insertDesc x ih

/-- C9: grouping partitions the citations — the six group sizes sum to the
input length and every group is exactly the in-order sublist of citations of
its category (first matching keyword rule, default `Other`); the summary lists
only categories with a nonzero count, in descending order of count. -/
theorem coverage_partition_and_summary (cs : List Citation) :
    ((groupCitationsByCategory cs).playbook.length
      + (groupCitationsByCategory cs).daywiseNarrations.length
      + (groupCitationsByCategory cs).costs.length
      + (groupCitationsByCategory cs).styleGuide.length
      + (groupCitationsByCategory cs).travelFiles.length
      + (groupCitationsByCategory cs).other.length = cs.length) ∧
    (∀ cat, groupOf (groupCitationsByCategory cs) cat
      = cs.filter (fun c => decide (categorizeCitation c = cat))) ∧
    (∀ e ∈ getCoverageSummary cs, 0 < e.count) ∧
    List.Pairwise (fun a b => b.count ≤ a.count) (getCoverageSummary cs) := by
  refine ⟨?_, ?_, ?_, ?_⟩
  · simpa [groupCitationsByCategory, emptyGroups] using sum_lengths_fold cs emptyGroups
  · intro cat
    rw [groupCitationsByCategory, groupOf_fold cs emptyGroups cat]
    cases cat <;> simp [emptyGroups, groupOf]
  · intro e he
    have hmem := mem_sortByCountDesc he
    have := List.of_mem_filter hmem
    simpa using this
  · exact pairwise_sortByCountDesc _

/-- Witness for `coverage_partition_and_summary` on a concrete citation list
(two cost citations and one uncategorized one): the summary entry for the
cost category is present and has a positive count. -/
theorem coverage_partition_and_summary_witness :
    (⟨CoverageCategory.costs, 2⟩ : CoverageEntry) ∈ getCoverageSummary
      [⟨"vietnam_trip_costs.csv", some "Trip Cost", none, none⟩,
       ⟨"budget notes", none, none, none⟩,
       ⟨"misc", none, none, none⟩] ∧
    0 < (⟨CoverageCategory.costs, 2⟩ : CoverageEntry).count := by
  refine ⟨by decide, ?_⟩
  exact (coverage_partition_and_summary
    [⟨"vietnam_trip_costs.csv", some "Trip Cost", none, none⟩,
     ⟨"budget notes", none, none, none⟩,
     ⟨"misc", none, none, none⟩]).2.2.1 _ (by decide)

end Coverage

namespace Stream

/-- C8: a rejected fetch, a non-OK status or a missing body each produce
exactly one `error` event followed by exactly one `done` event with
`finish_reason` `"error"`; an OK response is decoded frame by frame, and a
frame whose `data` is not valid JSON is silently dropped, leaving the other
frames processed normally. -/
theorem streamSSE_error_paths_and_bad_json (parse : String → Option SSEJson) :
    (∀ msg, streamSSE parse (.reject msg)
      = [.errorEv (jsOr msg "network error"), .done (some "error")]) ∧
    (∀ ok status hasBody body, (ok && hasBody) = false →
      streamSSE parse (.response ok status hasBody body)
        = [.errorEv ("HTTP " ++ toString status), .done (some "error")]) ∧
    (∀ status body, streamSSE parse (.response true status true body)
        = (framesOf body).flatMap (processFrame parse)) ∧
    (∀ pre post bad,
      parse (parseFrameHeader ((splitOnChar '\n' bad.data).map String.mk)).2 = none →
      (parseFrameHeader ((splitOnChar '\n' bad.data).map String.mk)).2 ≠ "" →
      (pre ++ bad :: post).flatMap (processFrame parse)
        = pre.flatMap (processFrame parse) ++ post.flatMap (processFrame parse)) := by
  refine ⟨fun msg => rfl, ?_, fun status body => rfl, ?_⟩
  · intro ok status hasBody body h
    simp [streamSSE, h]
  · intro pre post bad h1 h2
    have hbad : processFrame parse bad = [] := by
      unfold processFrame
      simp only [h2, if_neg, h1]
      rfl
    simp [List.flatMap_append, List.flatMap_cons, hbad]

/-- Witness for `streamSSE_error_paths_and_bad_json`: with a parser that
rejects everything, the malformed middle frame is dropped while the empty-data
frames around it still produce their events. -/
theorem streamSSE_error_paths_witness :
    (["foo"] ++ "data: n" :: ["bar"]).flatMap (processFrame (fun _ => none))
      = ["foo"].flatMap (processFrame (fun _ => none))
        ++ ["bar"].flatMap (processFrame (fun _ => none)) :=
  (streamSSE_error_paths_and_bad_json (fun _ => none)).2.2.2 ["foo"] ["bar"] "data: n"
    (by rfl) (by decide)

end Stream

namespace Api

/-- C7 counterexample is in `RagRoute`; this namespace proves C6. -/
lemma apiCallAux_attempts_pos {T : Type} (o : Nat → FetchOutcome T) (a r : Nat) :
    1 ≤ (apiCallAux o a r).attemptsMade := by
  cases r with
  | zero => unfold apiCallAux; cases o a <;> simp
  | succ r =>
    unfold apiCallAux
    cases o a <;> (simp; try split) <;> simp

lemma apiCallAux_attempts_le {T : Type} (o : Nat → FetchOutcome T) :
    ∀ r a, (apiCallAux o a r).attemptsMade ≤ r + 1 := by
  intro r
  induction r with
  | zero => intro a; unfold apiCallAux; cases o a <;> simp
  | succ r ih =>
    intro a
    unfold apiCallAux
    cases o a with
    | ok v => simp
    | httpFailure s ra m =>
      simp only
      split
      · simpa using ih (a + 1)
      · simp
    | fetchTypeError m => simpa using ih (a + 1)
    | otherFailure m => simp

lemma apiCallAux_delays {T : Type} (o : Nat → FetchOutcome T) :
    ∀ r a, (apiCallAux o a r).delays
      = (List.range ((apiCallAux o a r).attemptsMade - 1)).map
          (fun k => retryDelay (o (a + k)) (a + k)) := by
  intro r
  induction r with
  | zero => intro a; unfold apiCallAux; cases o a <;> simp
  | succ r ih =>
    intro a
    have hpos := apiCallAux_attempts_pos o (a + 1) r
    unfold apiCallAux
    cases ho : o a with
    | ok v => simp
    | httpFailure s ra m =>
      simp only
      split
      · have hrange :
            (apiCallAux o (a + 1) r).attemptsMade + 1 - 1
              = ((apiCallAux o (a + 1) r).attemptsMade - 1) + 1 := by omega
        simp only [hrange, List.range_succ_eq_map, List.map_cons, List.map_map]
        congr 1
        · simp [retryDelay, ho]
        · rw [ih (a + 1)]
          apply List.map_congr_left
          intro k _
          have hk : a + (k + 1) = a + 1 + k := by omega
          simp [Function.comp, hk]
      · simp
    | fetchTypeError m =>
      have hrange :
          (apiCallAux o (a + 1) r).attemptsMade + 1 - 1
            = ((apiCallAux o (a + 1) r).attemptsMade - 1) + 1 := by omega
      simp only [hrange, List.range_succ_eq_map, List.map_cons, List.map_map]
      congr 1
      · simp [retryDelay, ho]
      · rw [ih (a + 1)]
        apply List.map_congr_left
        intro k _
        have hk : a + (k + 1) = a + 1 + k := by omega
        simp [Function.comp, hk]
    | otherFailure m => simp

lemma apiCallAux_exhaust {T : Type} (o : Nat → FetchOutcome T) :
    ∀ r a, (∀ i, i ≤ r → transientOutcome (o (a + i)) = true) →
      (apiCallAux o a r).attemptsMade = r + 1 ∧
      ∃ msg, surfaceMsg (o (a + r)) = some msg ∧
        (apiCallAux o a r).result = .error msg := by
  intro r
  induction r with
  | zero =>
    intro a h
    have h0 := h 0 (le_refl 0)
    simp only [Nat.add_zero] at h0 ⊢
    unfold apiCallAux
    cases ho : o a with
    | ok v => rw [ho] at h0; simp [transientOutcome] at h0
    | httpFailure s ra m => exact ⟨rfl, m, rfl, rfl⟩
    | fetchTypeError m => exact ⟨rfl, "Backend server unavailable", rfl, rfl⟩
    | otherFailure m => rw [ho] at h0; simp [transientOutcome] at h0
  | succ r ih =>
    intro a h
    have h0 := h 0 (Nat.zero_le _)
    simp only [Nat.add_zero] at h0
    have hrest : ∀ i, i ≤ r → transientOutcome (o (a + 1 + i)) = true := by
      intro i hi
      have := h (i + 1) (by omega)
      simpa [show a + (i + 1) = a + 1 + i by omega] using this
    have hrec := ih (a + 1) hrest
    have heq : a + 1 + r = a + (r + 1) := by omega
    rw [heq] at hrec
    unfold apiCallAux
    cases ho : o a with
    | ok v => rw [ho] at h0; simp [transientOutcome] at h0
    | httpFailure s ra m =>
      rw [ho] at h0
      simp only [transientOutcome] at h0
      simp only
      split
      · rcases hrec with ⟨hatt, msg, hm, hr⟩
        refine ⟨by simp [hatt], msg, hm, by simpa using hr⟩
      · rename_i hcond
        exact absurd h0 hcond
    | fetchTypeError m =>
      rcases hrec with ⟨hatt, msg, hm, hr⟩
      exact ⟨by simp [hatt], msg, hm, by simpa using hr⟩
    | otherFailure m => rw [ho] at h0; simp [transientOutcome] at h0

/-- C6: a call whose fetch attempts fail transiently (HTTP 429/5xx or a
network-level fetch error) is retried at most `maxRetries` times; every retry
waits the policy delay (the `Retry-After` header in milliseconds when present,
otherwise `baseDelay * 2 ^ attempt`); once the attempts are exhausted the
failure is surfaced to the caller as a thrown error (an `Except.error` of this
one call, leaving other requests untouched). -/
theorem apiCall_retry_policy (T : Type) (o : Nat → FetchOutcome T) :
    ((apiCall o).attemptsMade ≤ maxRetries + 1) ∧
    ((apiCall o).delays
      = (List.range ((apiCall o).attemptsMade - 1)).map (fun k => retryDelay (o k) k)) ∧
    ((∀ i, i ≤ maxRetries → transientOutcome (o i) = true) →
      (apiCall o).attemptsMade = maxRetries + 1 ∧
      ∃ msg, surfaceMsg (o maxRetries) = some msg ∧ (apiCall o).result = .error msg) := by
  refine ⟨apiCallAux_attempts_le o maxRetries 0, ?_, ?_⟩
  · simpa using apiCallAux_delays o maxRetries 0
  · intro h
    have := apiCallAux_exhaust o maxRetries 0 (by intro i hi; simpa using h i hi)
    simpa using this

/-- Witness for `apiCall_retry_policy`: a backend that always answers 500 is
retried twice with exponential delays and then surfaces its error. -/
theorem apiCall_retry_policy_witness :
    (apiCall (fun _ => (FetchOutcome.httpFailure 500 0 "boom" : FetchOutcome Nat))).attemptsMade
      = maxRetries + 1 ∧
    ∃ msg, surfaceMsg ((fun _ => (FetchOutcome.httpFailure 500 0 "boom" : FetchOutcome Nat))
        maxRetries) = some msg ∧
      (apiCall (fun _ => (FetchOutcome.httpFailure 500 0 "boom" : FetchOutcome Nat))).result
        = .error msg :=
  (apiCall_retry_policy Nat (fun _ => (FetchOutcome.httpFailure 500 0 "boom" : FetchOutcome Nat))).2.2
    (by intro i _; rfl)

end Api

namespace RagRoute

/-- C7 counterexample: when the backend fetch rejects with a connection
failure, both rag chat route handlers return HTTP status 200 with a fallback
body — the run does not terminate with a non-zero / error outcome, so the
claim as stated is false on this code. -/
theorem ragRoute_connection_failure_returns_200 :
    (ragChatPOST (.fetchReject "connect ECONNREFUSED 127.0.0.1:8000")).1 = 200 ∧
    (ragChatPOST (.fetchReject "connect ECONNREFUSED 127.0.0.1:8000")).2
      = .fallback ragFallbackContent ∧
    (ragChatStreamPOST (.fetchReject "connect ECONNREFUSED 127.0.0.1:8000")).1 = 200 ∧
    (ragChatStreamPOST (.fetchReject "connect ECONNREFUSED 127.0.0.1:8000")).2
      = .fallbackSSE :=
  ⟨rfl, rfl, rfl, rfl⟩

/-- C7 amended: a backend/vector-store connection failure is caught by the rag
chat route handlers, which return a successful (status-200) fallback response
whose content reports the service unavailable (for the streaming route, a
fallback SSE stream); no error status is propagated to the caller. -/
theorem ragRoute_connection_failure_fallback :
    (∀ m, ragChatPOST (.fetchReject m) = (200, .fallback ragFallbackContent)) ∧
    (∀ m, ragChatStreamPOST (.fetchReject m) = (200, .fallbackSSE)) ∧
    (∀ st hb b, ragChatPOST (.respond false st hb b) = (200, .fallback ragFallbackContent)) ∧
    (∀ st hb b, ragChatStreamPOST (.respond false st hb b) = (200, .fallbackSSE)) :=
  ⟨fun _ => rfl, fun _ => rfl, fun _ _ _ => rfl, fun _ _ _ => rfl⟩

end RagRoute

namespace Chunker

lemma wtok_self (sents : List (List String)) (a : Nat) : wtok sents a a = 0 := by
  simp [wtok, sliceTok]

lemma sliceTok_append (sents : List (List String)) {a m b : Nat} (h1 : a ≤ m) (h2 : m ≤ b) :
    sliceTok sents a b = sliceTok sents a m ++ sliceTok sents m b := by
  unfold sliceTok
  have hb : b - a = (m - a) + (b - m) := by omega
  have hd : (sents.drop a).drop (m - a) = sents.drop m := by
    rw [List.drop_drop]; congr 1; omega
  rw [hb, List.take_add, List.flatten_append, hd]

lemma wtok_append (sents : List (List String)) {a m b : Nat} (h1 : a ≤ m) (h2 : m ≤ b) :
    wtok sents a b = wtok sents a m + wtok sents m b := by
  unfold wtok
  rw [sliceTok_append sents h1 h2, List.length_append]

lemma sliceTok_one (sents : List (List String)) {i : Nat} {s : List String}
    {rest : List (List String)} (h : sents.drop i = s :: rest) :
    sliceTok sents i (i + 1) = s := by
  unfold sliceTok
  rw [h]
  simp

lemma wtok_succ (sents : List (List String)) {i ws : Nat} {s : List String}
    {rest : List (List String)} (h : sents.drop i = s :: rest) (hws : ws ≤ i) :
    wtok sents ws (i + 1) = wtok sents ws i + s.length := by
  rw [wtok_append sents hws (Nat.le_succ i)]
  congr 1
  unfold wtok
  rw [sliceTok_one sents h]

lemma drop_succ_of_drop (sents : List (List String)) {i : Nat} {s : List String}
    {rest : List (List String)} (h : sents.drop i = s :: rest) :
    sents.drop (i + 1) = rest := by
  rw [← List.tail_drop, h]
  rfl

lemma ovStart_ge (sents : List (List String)) (budget : Nat) :
    ∀ fuel ws, ws ≤ ovStart sents budget ws fuel := by
  intro fuel
  induction fuel with
  | zero => intro ws; simp [ovStart]
  | succ fuel ih =>
    intro ws
    unfold ovStart
    split
    · exact le_refl ws
    · exact le_trans (Nat.le_succ ws) (ih (ws + 1))

lemma ovStart_le (sents : List (List String)) (budget : Nat) :
    ∀ fuel ws, ovStart sents budget ws fuel ≤ ws + fuel := by
  intro fuel
  induction fuel with
  | zero => intro ws; simp [ovStart]
  | succ fuel ih =>
    intro ws
    unfold ovStart
    split
    · exact Nat.le_add_right _ _
    · exact le_trans (ih (ws + 1)) (by omega)

lemma ovStart_tok (sents : List (List String)) (budget : Nat) :
    ∀ fuel ws, wtok sents (ovStart sents budget ws fuel) (ws + fuel) ≤ budget := by
  intro fuel
  induction fuel with
  | zero => intro ws; simp [ovStart, wtok_self]
  | succ fuel ih =>
    intro ws
    unfold ovStart
    split
    · rename_i h; exact h
    · have heq : ws + (fuel + 1) = (ws + 1) + fuel := by omega
      rw [heq]
      exact ih (ws + 1)

lemma go_bounds (sents : List (List String)) (maxT ovT : Nat) :
    ∀ rest i ws, ws ≤ i →
      ∀ r ∈ go sents maxT ovT rest i ws, ws ≤ r.ws ∧ r.ws ≤ r.we ∧ i ≤ r.we := by
  intro rest
  induction rest with
  | nil =>
    intro i ws hws r hr
    unfold go at hr
    split at hr
    · rcases List.mem_singleton.mp hr with rfl
      exact ⟨le_refl _, hws, le_refl _⟩
    · simp at hr
  | cons s rest ih =>
    intro i ws hws r hr
    unfold go at hr
    split at hr
    · rcases List.mem_append.mp hr with h1 | h2
      · split at h1
        · rcases List.mem_singleton.mp h1 with rfl
          exact ⟨le_refl _, hws, le_refl _⟩
        · simp at h1
      · rcases List.mem_cons.mp h2 with rfl | h3
        · exact ⟨hws, Nat.le_succ _, Nat.le_succ _⟩
        · have hh := ih (i + 1) (i + 1) (le_refl _) r h3
          exact ⟨by omega, hh.2.1, by omega⟩
    · split at hr
      · have hh := ih (i + 1) ws (by omega) r hr
        exact ⟨hh.1, hh.2.1, by omega⟩
      · rcases List.mem_cons.mp hr with rfl | h3
        · exact ⟨le_refl _, hws, le_refl _⟩
        · have hb1 : ws ≤ ovStart sents (min ovT (maxT - s.length)) ws (i - ws) :=
            ovStart_ge sents _ _ ws
          have hb2 : ovStart sents (min ovT (maxT - s.length)) ws (i - ws) ≤ i + 1 := by
            have := ovStart_le sents (min ovT (maxT - s.length)) (i - ws) ws
            omega
          have hh := ih (i + 1) _ hb2 r h3
          exact ⟨le_trans hb1 hh.1, hh.2.1, by omega⟩

lemma go_head (sents : List (List String)) (maxT ovT : Nat) :
    ∀ rest i ws r rs, ws ≤ i → go sents maxT ovT rest i ws = r :: rs → r.ws = ws := by
  intro rest
  induction rest with
  | nil =>
    intro i ws r rs hws hgo
    unfold go at hgo
    split at hgo
    · injection hgo with h1 _
      rw [← h1]
    · exact absurd hgo (by simp)
  | cons s rest ih =>
    intro i ws r rs hws hgo
    unfold go at hgo
    split at hgo
    · by_cases hwi : ws < i
      · rw [if_pos hwi] at hgo
        simp only [List.singleton_append] at hgo
        injection hgo with h1 _
        rw [← h1]
      · rw [if_neg hwi] at hgo
        simp only [List.nil_append] at hgo
        injection hgo with h1 _
        rw [← h1]
        show i = ws
        omega
    · split at hgo
      · exact ih (i + 1) ws r rs (by omega) hgo
      · injection hgo with h1 _
        rw [← h1]

lemma go_bound (sents : List (List String)) (maxT ovT : Nat) :
    ∀ rest i ws, rest = sents.drop i → ws ≤ i → wtok sents ws i ≤ maxT →
      ∀ r ∈ go sents maxT ovT rest i ws,
        (r.oversized = false → wtok sents r.ws r.we ≤ maxT) ∧
        (r.oversized = true → r.we = r.ws + 1 ∧ maxT < wtok sents r.ws r.we) := by
  intro rest
  induction rest with
  | nil =>
    intro i ws hrest hws hbound r hr
    unfold go at hr
    split at hr
    · rcases List.mem_singleton.mp hr with rfl
      exact ⟨fun _ => hbound, fun h => absurd h (by simp)⟩
    · simp at hr
  | cons s rest ih =>
    intro i ws hrest hws hbound r hr
    have hdrop : sents.drop i = s :: rest := hrest.symm
    have hrest2 : rest = sents.drop (i + 1) := (drop_succ_of_drop sents hdrop).symm
    unfold go at hr
    split at hr
    · rename_i hover
      rcases List.mem_append.mp hr with h1 | h2
      · split at h1
        · rcases List.mem_singleton.mp h1 with rfl
          exact ⟨fun _ => hbound, fun h => absurd h (by simp)⟩
        · simp at h1
      · rcases List.mem_cons.mp h2 with rfl | h3
        · refine ⟨fun h => absurd h (by simp), fun _ => ⟨rfl, ?_⟩⟩
          show maxT < wtok sents i (i + 1)
          have hone : wtok sents i (i + 1) = s.length := by
            unfold wtok; rw [sliceTok_one sents hdrop]
          rw [hone]
          exact hover
        · exact ih (i + 1) (i + 1) hrest2 (le_refl _)
            (by rw [wtok_self]; exact Nat.zero_le _) r h3
    · rename_i hsfit
      split at hr
      · rename_i hfits
        exact ih (i + 1) ws hrest2 (by omega)
          (by rw [wtok_succ sents hdrop hws]; exact hfits) r hr
      · rename_i hnofit
        rcases List.mem_cons.mp hr with rfl | h3
        · exact ⟨fun _ => hbound, fun h => absurd h (by simp)⟩
        · have hble : ovStart sents (min ovT (maxT - s.length)) ws (i - ws) ≤ i := by
            have := ovStart_le sents (min ovT (maxT - s.length)) (i - ws) ws
            omega
          have htk : wtok sents (ovStart sents (min ovT (maxT - s.length)) ws (i - ws)) i
              ≤ min ovT (maxT - s.length) := by
            have := ovStart_tok sents (min ovT (maxT - s.length)) (i - ws) ws
            rwa [show ws + (i - ws) = i by omega] at this
          have hbnd : wtok sents (ovStart sents (min ovT (maxT - s.length)) ws (i - ws)) (i + 1)
              ≤ maxT := by
            rw [wtok_succ sents hdrop hble]
            have hsle : s.length ≤ maxT := by omega
            have h2 := le_trans htk (min_le_right _ _)
            omega
          exact ih (i + 1) _ hrest2 (by omega) hbnd r h3

end Chunker

namespace Chunker

lemma go_chain (sents : List (List String)) (maxT ovT : Nat) :
    ∀ rest i ws, rest = sents.drop i → ws ≤ i → wtok sents ws i ≤ maxT →
      List.Chain' (rangeRel sents ovT) (go sents maxT ovT rest i ws) := by
  intro rest
  induction rest with
  | nil =>
    intro i ws hrest hws hbound
    unfold go
    split
    · exact List.chain'_singleton _
    · exact List.chain'_nil
  | cons s rest ih =>
    intro i ws hrest hws hbound
    have hdrop : sents.drop i = s :: rest := hrest.symm
    have hrest2 : rest = sents.drop (i + 1) := (drop_succ_of_drop sents hdrop).symm
    unfold go
    split
    · rename_i hover
      have hchainrec : List.Chain' (rangeRel sents ovT) (go sents maxT ovT rest (i + 1) (i + 1)) :=
        ih (i + 1) (i + 1) hrest2 (le_refl _) (by rw [wtok_self]; exact Nat.zero_le _)
      have hrelhead : ∀ y ∈ (go sents maxT ovT rest (i + 1) (i + 1)).head?,
          rangeRel sents ovT ⟨i, i + 1, true⟩ y := by
        intro y hy
        cases hgo : go sents maxT ovT rest (i + 1) (i + 1) with
        | nil => rw [hgo] at hy; simp at hy
        | cons r rs =>
          rw [hgo] at hy
          simp only [List.head?_cons, Option.mem_def, Option.some.injEq] at hy
          subst hy
          have hwsr : r.ws = i + 1 :=
            go_head sents maxT ovT rest (i + 1) (i + 1) r rs (le_refl _) hgo
          have hbs := go_bounds sents maxT ovT rest (i + 1) (i + 1) (le_refl _) r
            (by rw [hgo]; exact List.mem_cons_self _ _)
          refine ⟨?_, ?_, ?_, ?_⟩
          · show i ≤ r.ws; omega
          · show r.ws ≤ i + 1; omega
          · show i + 1 ≤ r.we; exact hbs.2.2
          · show wtok sents r.ws (i + 1) ≤ ovT
            rw [hwsr, wtok_self]; exact Nat.zero_le _
      have hchain2 : List.Chain' (rangeRel sents ovT)
          (⟨i, i + 1, true⟩ :: go sents maxT ovT rest (i + 1) (i + 1)) :=
        List.chain'_cons'.mpr ⟨hrelhead, hchainrec⟩
      split
      · rename_i hwi
        simp only [List.singleton_append]
        refine List.chain'_cons'.mpr ⟨?_, hchain2⟩
        intro y hy
        simp only [List.head?_cons, Option.mem_def, Option.some.injEq] at hy
        subst hy
        exact ⟨hws, le_refl _, Nat.le_succ _, by rw [wtok_self]; exact Nat.zero_le _⟩
      · simp only [List.nil_append]
        exact hchain2
    · rename_i hsfit
      split
      · rename_i hfits
        exact ih (i + 1) ws hrest2 (by omega)
          (by rw [wtok_succ sents hdrop hws]; exact hfits)
      · rename_i hnofit
        have hb1 : ws ≤ ovStart sents (min ovT (maxT - s.length)) ws (i - ws) :=
          ovStart_ge sents _ _ ws
        have hble : ovStart sents (min ovT (maxT - s.length)) ws (i - ws) ≤ i := by
          have := ovStart_le sents (min ovT (maxT - s.length)) (i - ws) ws
          omega
        have htk : wtok sents (ovStart sents (min ovT (maxT - s.length)) ws (i - ws)) i
            ≤ min ovT (maxT - s.length) := by
          have := ovStart_tok sents (min ovT (maxT - s.length)) (i - ws) ws
          rwa [show ws + (i - ws) = i by omega] at this
        have hbnd : wtok sents (ovStart sents (min ovT (maxT - s.length)) ws (i - ws)) (i + 1)
            ≤ maxT := by
          rw [wtok_succ sents hdrop hble]
          have hsle : s.length ≤ maxT := by omega
          have h2 := le_trans htk (min_le_right _ _)
          omega
        refine List.chain'_cons'.mpr
          ⟨?_, ih (i + 1) (ovStart sents (min ovT (maxT - s.length)) ws (i - ws))
            hrest2 (by omega) hbnd⟩
        intro y hy
        cases hgo : go sents maxT ovT rest (i + 1)
            (ovStart sents (min ovT (maxT - s.length)) ws (i - ws)) with
        | nil => rw [hgo] at hy; simp at hy
        | cons r rs =>
          rw [hgo] at hy
          simp only [List.head?_cons, Option.mem_def, Option.some.injEq] at hy
          subst hy
          have hwsr : r.ws = ovStart sents (min ovT (maxT - s.length)) ws (i - ws) :=
            go_head sents maxT ovT rest (i + 1)
              (ovStart sents (min ovT (maxT - s.length)) ws (i - ws)) r rs (by omega) hgo
          have hbs := go_bounds sents maxT ovT rest (i + 1)
            (ovStart sents (min ovT (maxT - s.length)) ws (i - ws)) (by omega) r
            (by rw [hgo]; exact List.mem_cons_self _ _)
          refine ⟨?_, ?_, ?_, ?_⟩
          · show ws ≤ r.ws; omega
          · show r.ws ≤ i; omega
          · show i ≤ r.we; exact le_trans (Nat.le_succ i) hbs.2.2
          · show wtok sents r.ws i ≤ ovT
            rw [hwsr]; exact le_trans htk (min_le_left _ _)

lemma rangeRel_to_overlapRel (sents : List (List String)) (ovT pi : Nat) {a b : WRange}
    (h : rangeRel sents ovT a b) :
    overlapRel sents ovT (rangeChunk pi sents a) (rangeChunk pi sents b) := by
  obtain ⟨h1, h2, h3, h4⟩ := h
  refine ⟨h1, h2, h3, h4, ?_⟩
  show (sliceTok sents a.ws a.we).drop
      ((sliceTok sents a.ws a.we).length - wtok sents b.ws a.we)
    = (sliceTok sents b.ws b.we).take (wtok sents b.ws a.we)
  rw [sliceTok_append sents h1 h2, sliceTok_append sents h2 h3]
  unfold wtok
  rw [List.length_append,
    show (sliceTok sents a.ws b.ws).length + (sliceTok sents b.ws a.we).length
        - (sliceTok sents b.ws a.we).length = (sliceTok sents a.ws b.ws).length by omega,
    List.drop_left, List.take_left]

/-- C2 (amended): within the sentence-window split of one paragraph,
consecutive chunks have overlapping sentence ranges; with `k` the token count
of the shared whole-sentence span (`k ≤ overlapTokens`, rounded down, possibly
0 across an oversized sentence or when the budget leaves no room), the last
`k` tokens of chunk `i` equal the first `k` tokens of chunk `i+1`.  Chunks of
different paragraphs share no overlap. -/
theorem windowChunks_overlap (pi : Nat) (sents : List (List String)) (maxT ovT : Nat) :
    List.Chain' (overlapRel sents ovT) (windowChunks pi sents maxT ovT) := by
  unfold windowChunks
  rw [List.chain'_map]
  exact List.Chain'.imp (fun a b h => rangeRel_to_overlapRel sents ovT pi h)
    (go_chain sents maxT ovT sents 0 0 (List.drop_zero sents).symm (le_refl 0)
      (by rw [wtok_self]; exact Nat.zero_le _))

/-- C2 counterexample: two paragraphs that each fit `maxTokens` become two
consecutive chunks that share no overlap — the last `overlapTokens` tokens of
chunk 0 differ from the first `overlapTokens` tokens of chunk 1, refuting the
claim as stated over `chunkProseDocument`. -/
theorem chunkProse_overlap_counterexample :
    ((chunkProseDocument "t.txt" [[["a", "b"]], [["c", "d"]]] 2 1).map (fun p => p.2.text)
      = [["a", "b"], ["c", "d"]]) ∧
    ¬ (["a", "b"].drop (["a", "b"].length - 1) = (["c", "d"].take 1 : List String)) := by
  constructor
  · rfl
  · decide

lemma chunkOnePara_bound (maxT ovT pi : Nat) (p : List (List String)) :
    ∀ c ∈ chunkOnePara maxT ovT pi p,
      (c.oversized = false → c.text.length ≤ maxT) ∧
      (c.oversized = true → c.sentenceEnd = c.sentenceStart + 1 ∧ maxT < c.text.length) := by
  intro c hc
  unfold chunkOnePara at hc
  split at hc
  · rename_i hfit
    rcases List.mem_singleton.mp hc with rfl
    exact ⟨fun _ => hfit, fun h => absurd h (by simp)⟩
  · unfold windowChunks at hc
    rcases List.mem_map.mp hc with ⟨r, hr, rfl⟩
    have hb := go_bound p maxT ovT p 0 0 (List.drop_zero p).symm (le_refl 0)
      (by rw [wtok_self]; exact Nat.zero_le _) r hr
    exact ⟨fun h => hb.1 h, fun h => hb.2 h⟩

lemma chunkParas_bound (maxT ovT : Nat) :
    ∀ ps pi, ∀ c ∈ chunkParas maxT ovT pi ps,
      (c.oversized = false → c.text.length ≤ maxT) ∧
      (c.oversized = true → c.sentenceEnd = c.sentenceStart + 1 ∧ maxT < c.text.length) := by
  intro ps
  induction ps with
  | nil => intro pi c hc; simp [chunkParas] at hc
  | cons p ps ih =>
    intro pi c hc
    unfold chunkParas at hc
    rcases List.mem_append.mp hc with h1 | h2
    · exact chunkOnePara_bound maxT ovT pi p c h1
    · exact ih (pi + 1) c h2

lemma mem_assignIds {α : Type} (path : String) :
    ∀ i (cs : List α) (p : (String × Nat) × α), p ∈ assignIds path i cs → p.2 ∈ cs := by
  intro i cs
  induction cs generalizing i with
  | nil => intro p hp; simp [assignIds] at hp
  | cons c cs ih =>
    intro p hp
    unfold assignIds at hp
    rcases List.mem_cons.mp hp with rfl | h
    · exact List.mem_cons_self _ _
    · exact List.mem_cons_of_mem _ (ih (i + 1) p h)

/-- C1 (amended): every prose chunk respects the token budget — an unflagged
chunk has at most `maxTokens` tokens, and a flagged (oversized) chunk is a
single sentence of more than `maxTokens` tokens, emitted whole rather than
truncated or dropped.  Tabular row chunks are one per row, never split, and
are not subject to the bound (see the counterexample). -/
theorem chunkProse_token_bound (path : String) (paras : List (List (List String)))
    (maxT ovT : Nat) :
    ∀ p ∈ chunkProseDocument path paras maxT ovT,
      (p.2.oversized = false → p.2.text.length ≤ maxT) ∧
      (p.2.oversized = true →
        p.2.sentenceEnd = p.2.sentenceStart + 1 ∧ maxT < p.2.text.length) := by
  intro p hp
  unfold chunkProseDocument at hp
  exact chunkParas_bound maxT ovT paras 0 p.2 (mem_assignIds path 0 _ p hp)

/-- Witness for `chunkProse_token_bound`: a two-sentence paragraph split at
`maxTokens = 1` yields a first chunk of one token, within the bound. -/
theorem chunkProse_token_bound_witness :
    ((("doc.txt", 0), (⟨0, 0, 1, ["a"], false⟩ : PChunk))
        ∈ chunkProseDocument "doc.txt" [[["a"], ["b"]]] 1 0) ∧
    (⟨0, 0, 1, ["a"], false⟩ : PChunk).text.length ≤ 1 := by
  refine ⟨by decide, ?_⟩
  exact (chunkProse_token_bound "doc.txt" [[["a"], ["b"]]] 1 0
    (("doc.txt", 0), ⟨0, 0, 1, ["a"], false⟩) (by decide)).1 rfl

/-- C1 counterexample: a tabular source is chunked one chunk per row with no
splitting, so with the configured maximum at 1 token the row chunk's text
(4 whitespace tokens) exceeds the bound, and row chunks carry no oversized
flag — the universal token bound over prose *and* tabular chunks is false. -/
theorem tabular_token_bound_counterexample :
    ¬ (∀ p ∈ chunkTabularDocument "vietnam_trip_costs.csv"
        [[("item", "night bus"), ("cost", "12")]],
        wsTokenCount p.2.text ≤ 1) := by decide

end Chunker

namespace Chunker

lemma assignIds_map_fst {α : Type} (path : String) :
    ∀ (cs : List α) (i : Nat), (assignIds path i cs).map (fun p => p.1)
      = (List.range' i cs.length).map (fun k => (path, k)) := by
  intro cs
  induction cs with
  | nil => intro i; simp [assignIds]
  | cons c cs ih =>
    intro i
    unfold assignIds
    rw [List.map_cons, List.length_cons, List.range'_succ, List.map_cons, ih (i + 1)]

lemma assignIds_length {α : Type} (path : String) :
    ∀ (cs : List α) (i : Nat), (assignIds path i cs).length = cs.length := by
  intro cs
  induction cs with
  | nil => intro i; rfl
  | cons c cs ih => intro i; unfold assignIds; rw [List.length_cons, List.length_cons, ih (i + 1)]

lemma assignIds_map_snd_comp {α γ : Type} (path : String) (g : α → γ) :
    ∀ (cs : List α) (i : Nat), (assignIds path i cs).map (fun p => g p.2) = cs.map g := by
  intro cs
  induction cs with
  | nil => intro i; rfl
  | cons c cs ih =>
    intro i
    unfold assignIds
    rw [List.map_cons, List.map_cons, ih (i + 1)]

lemma assignIds_ids_nodup {α : Type} (path : String) (cs : List α) (i : Nat) :
    ((assignIds path i cs).map (fun p => p.1)).Nodup := by
  rw [assignIds_map_fst]
  exact List.Nodup.map (fun a b h => by injection h) (List.nodup_range' ..)

end Chunker

namespace Indexer

lemma hasEntry_upsert_self {β : Type} (s : List ((String × Nat) × β)) (k : String × Nat) (v : β) :
    hasEntry (upsert s k v) k v := by
  unfold upsert hasEntry
  split
  · rename_i hany
    rw [List.any_eq_true] at hany
    obtain ⟨p, hp, hpk⟩ := hany
    rw [decide_eq_true_eq] at hpk
    constructor
    · exact ⟨(k, v), List.mem_map.mpr ⟨p, hp, by simp [hpk]⟩, rfl⟩
    · intro q hq hqk
      rcases List.mem_map.mp hq with ⟨p2, hp2, rfl⟩
      by_cases h2 : p2.1 = k
      · rw [if_pos h2]
      · rw [if_neg h2] at hqk ⊢
        exact absurd hqk h2
  · rename_i hany
    constructor
    · exact ⟨(k, v), List.mem_append.mpr (Or.inr (List.mem_singleton.mpr rfl)), rfl⟩
    · intro q hq hqk
      rcases List.mem_append.mp hq with h1 | h1
      · exact absurd (List.any_eq_true.mpr ⟨q, h1, decide_eq_true hqk⟩) hany
      · exact List.mem_singleton.mp h1

lemma hasEntry_upsert_other {β : Type} {s : List ((String × Nat) × β)}
    {k : String × Nat} {v : β} {k2 : String × Nat} {v2 : β} (hne : k2 ≠ k)
    (h : hasEntry s k2 v2) : hasEntry (upsert s k v) k2 v2 := by
  obtain ⟨⟨p0, hp0, hp0k⟩, hall⟩ := h
  unfold upsert
  split
  · constructor
    · refine ⟨(if p0.1 = k then (k, v) else p0), List.mem_map.mpr ⟨p0, hp0, rfl⟩, ?_⟩
      rw [if_neg (by rw [hp0k]; exact hne)]
      exact hp0k
    · intro q hq hqk
      rcases List.mem_map.mp hq with ⟨p2, hp2, rfl⟩
      by_cases h2 : p2.1 = k
      · rw [if_pos h2] at hqk ⊢
        exact absurd hqk.symm hne
      · rw [if_neg h2] at hqk ⊢
        exact hall p2 hp2 hqk
  · constructor
    · exact ⟨p0, List.mem_append.mpr (Or.inl hp0), hp0k⟩
    · intro q hq hqk
      rcases List.mem_append.mp hq with h1 | h1
      · exact hall q h1 hqk
      · rcases List.mem_singleton.mp h1 with rfl
        exact absurd hqk.symm hne

lemma upsert_of_hasEntry {β : Type} {s : List ((String × Nat) × β)}
    {k : String × Nat} {v : β} (h : hasEntry s k v) : upsert s k v = s := by
  obtain ⟨⟨p0, hp0, hp0k⟩, hall⟩ := h
  unfold upsert
  have hany : (s.any fun p => decide (p.1 = k)) = true :=
    List.any_eq_true.mpr ⟨p0, hp0, decide_eq_true hp0k⟩
  rw [if_pos hany]
  have hid : ∀ p ∈ s, (if p.1 = k then (k, v) else p) = p := by
    intro p hp
    by_cases h2 : p.1 = k
    · rw [if_pos h2, hall p hp h2]
    · rw [if_neg h2]
  calc s.map (fun p => if p.1 = k then (k, v) else p)
      = s.map id := List.map_congr_left hid
    _ = s := List.map_id s

lemma hasEntry_upsertAll {β : Type} :
    ∀ (entries : List ((String × Nat) × β)) (s : List ((String × Nat) × β))
      (k : String × Nat) (v : β), k ∉ entries.map (fun e => e.1) →
      hasEntry s k v → hasEntry (upsertAll s entries) k v := by
  intro entries
  induction entries with
  | nil => intro s k v _ h; exact h
  | cons e es ih =>
    intro s k v hnot h
    simp only [List.map_cons, List.mem_cons, not_or] at hnot
    obtain ⟨hne, hnotes⟩ := hnot
    show hasEntry (upsertAll (upsert s e.1 e.2) es) k v
    exact ih (upsert s e.1 e.2) k v hnotes (hasEntry_upsert_other hne h)

lemma upsertAll_entry_all {β : Type} :
    ∀ (entries : List ((String × Nat) × β)) (s : List ((String × Nat) × β)),
      (entries.map (fun e => e.1)).Nodup →
      ∀ e ∈ entries, hasEntry (upsertAll s entries) e.1 e.2 := by
  intro entries
  induction entries with
  | nil => intro s _ e he; simp at he
  | cons e0 es ih =>
    intro s hnd e he
    simp only [List.map_cons, List.nodup_cons] at hnd
    obtain ⟨hnotin, hnd2⟩ := hnd
    rcases List.mem_cons.mp he with rfl | h2
    · show hasEntry (upsertAll (upsert s e.1 e.2) es) e.1 e.2
      exact hasEntry_upsertAll es (upsert s e.1 e.2) e.1 e.2 hnotin (hasEntry_upsert_self ..)
    · show hasEntry (upsertAll (upsert s e0.1 e0.2) es) e.1 e.2
      exact ih (upsert s e0.1 e0.2) hnd2 e h2

lemma upsertAll_of_hasEntry {β : Type} :
    ∀ (entries : List ((String × Nat) × β)) (S : List ((String × Nat) × β)),
      (∀ e ∈ entries, hasEntry S e.1 e.2) → upsertAll S entries = S := by
  intro entries
  induction entries with
  | nil => intro S _; rfl
  | cons e es ih =>
    intro S hall
    show upsertAll (upsert S e.1 e.2) es = S
    rw [upsert_of_hasEntry (hall e (List.mem_cons_self _ _))]
    exact ih S (fun e2 he2 => hall e2 (List.mem_cons_of_mem _ he2))

lemma upsertAll_idem {β : Type} (store : List ((String × Nat) × β))
    (entries : List ((String × Nat) × β)) (hnd : (entries.map (fun e => e.1)).Nodup) :
    upsertAll (upsertAll store entries) entries = upsertAll store entries :=
  upsertAll_of_hasEntry entries _ (fun e he => upsertAll_entry_all entries store hnd e he)

/-- C5: if the embedding capability's vectors have a dimension different from
the collection's configured dimension, `indexChunks` fails fast with
`DimensionMismatchError`: the run aborts, the store is unchanged and zero
entries are written. -/
theorem indexChunks_dimension_mismatch {β : Type} (dim : Nat) (embed : β → List ℚ)
    (store : List ((String × Nat) × (β × List ℚ))) (chunks : List ((String × Nat) × β))
    (h : ∃ c ∈ chunks, (embed c.2).length ≠ dim) :
    indexChunks dim embed store chunks = ⟨store, 0, some .dimensionMismatch⟩ := by
  obtain ⟨c, hc, hlen⟩ := h
  have hneg : ¬ ((chunks.map fun c => (c.1, (c.2, embed c.2))).all
      (fun e => decide (e.2.2.length = dim)) = true) := by
    intro hall
    rw [List.all_eq_true] at hall
    have h2 := hall (c.1, (c.2, embed c.2)) (List.mem_map.mpr ⟨c, hc, rfl⟩)
    rw [decide_eq_true_eq] at h2
    exact hlen h2
  unfold indexChunks
  rw [if_neg hneg]

/-- Witness for `indexChunks_dimension_mismatch`: a 768-dimensional embedding
against a collection configured for 1536 dimensions aborts the run with the
store untouched and zero entries written. -/
theorem indexChunks_dimension_mismatch_witness :
    indexChunks 1536 (fun _ => List.replicate 768 (0 : ℚ))
      ([] : List ((String × Nat) × (Nat × List ℚ)))
      [(("costs.csv", 0), (5 : Nat))] = ⟨[], 0, some .dimensionMismatch⟩ :=
  indexChunks_dimension_mismatch 1536 _ [] _ (by decide)

end Indexer

/-- C3: chunk ids are derived purely from the source path and the chunk's
position (id `j` is `(path, j)`), hence identical across runs of the pure
chunker; they are pairwise distinct, so re-indexing the same chunk list
upserts onto the same ids and leaves the store identical — the same id set
and the same entry count, overwriting rather than duplicating. -/
theorem chunk_ids_and_reindex_idempotent (path : String) (paras : List (List (List String)))
    (maxT ovT : Nat) (rows : List (List (String × String)))
    (store : List ((String × Nat) × Chunker.PChunk))
    (store2 : List ((String × Nat) × Chunker.RowChunk)) :
    ((Chunker.chunkProseDocument path paras maxT ovT).map (fun p => p.1)
      = (List.range' 0 (Chunker.chunkProseDocument path paras maxT ovT).length).map
          (fun k => (path, k))) ∧
    (((Chunker.chunkProseDocument path paras maxT ovT).map (fun p => p.1)).Nodup) ∧
    (Indexer.upsertAll
        (Indexer.upsertAll store (Chunker.chunkProseDocument path paras maxT ovT))
        (Chunker.chunkProseDocument path paras maxT ovT)
      = Indexer.upsertAll store (Chunker.chunkProseDocument path paras maxT ovT)) ∧
    ((Chunker.chunkTabularDocument path rows).map (fun p => p.1)
      = (List.range' 0 rows.length).map (fun k => (path, k))) ∧
    (((Chunker.chunkTabularDocument path rows).map (fun p => p.1)).Nodup) ∧
    (Indexer.upsertAll (Indexer.upsertAll store2 (Chunker.chunkTabularDocument path rows))
        (Chunker.chunkTabularDocument path rows)
      = Indexer.upsertAll store2 (Chunker.chunkTabularDocument path rows)) := by
  refine ⟨?_, ?_, ?_, ?_, ?_, ?_⟩
  · unfold Chunker.chunkProseDocument
    rw [Chunker.assignIds_length, Chunker.assignIds_map_fst]
  · exact Chunker.assignIds_ids_nodup path _ 0
  · exact Indexer.upsertAll_idem store _ (Chunker.assignIds_ids_nodup path _ 0)
  · unfold Chunker.chunkTabularDocument
    rw [Chunker.assignIds_map_fst, List.length_map]
  · exact Chunker.assignIds_ids_nodup path _ 0
  · exact Indexer.upsertAll_idem store2 _ (Chunker.assignIds_ids_nodup path _ 0)

/-- C4: `chunkTabularDocument` maps each CSV row to exactly one chunk (chunk
count equals row count), whose `structuredFields` is the parsed row unmodified
and whose text is the row rendered as `field: value` lines joined with
newlines; each chunk's text depends only on its own row, so no overlap is
applied between row chunks. -/
theorem chunkTabular_row_fidelity (path : String) (rows : List (List (String × String))) :
    ((Chunker.chunkTabularDocument path rows).length = rows.length) ∧
    ((Chunker.chunkTabularDocument path rows).map (fun p => p.2.structuredFields) = rows) ∧
    ((Chunker.chunkTabularDocument path rows).map (fun p => p.2.text)
      = rows.map Chunker.renderRow) := by
  refine ⟨?_, ?_, ?_⟩
  · unfold Chunker.chunkTabularDocument
    rw [Chunker.assignIds_length, List.length_map]
  · unfold Chunker.chunkTabularDocument
    rw [Chunker.assignIds_map_snd_comp path (fun c : Chunker.RowChunk => c.structuredFields), List.map_map]
    exact List.map_id' rows
  · unfold Chunker.chunkTabularDocument
    rw [Chunker.assignIds_map_snd_comp path (fun c : Chunker.RowChunk => c.text), List.map_map]
    rfl
